import Mathlib

/-!
Verification of go-tk/configset against its specification.

The development shallowly embeds the `configset` Go package (package-level
code in the repository plus the behavior of its collaborators) in Lean:

* `Json` is the canonical tree held by the config set.  The Go code stores
  the tree as raw JSON bytes (`json.RawMessage`); here the tree is kept
  structurally, with object fields as an ordered association list so that
  the byte-level field order of the stored document is preserved (Go's
  `json.Marshal` emits map keys sorted, and in-place patches keep the
  order of untouched fields).  Serialization back to bytes is `Json.compact`.
* `extractKVs`, `gatherConfigs`, `overwriteConfigSet`, `ConfigSet.Load`,
  `ConfigSet.ReadValue` and `ConfigSet.Dump` follow the Go functions of the
  same names.
* External collaborators that are not part of the repository are modelled:
  the YAML converter (`sigs.k8s.io/yaml.YAMLToJSONStrict`) is passed in as
  a function argument `conv` (mirroring how the file system is a parameter
  of `Load` in the source), and the path get/set engines (`tidwall/gjson`,
  `tidwall/sjson`) are modelled by `jsonGet` / `setRaw` below, for the
  plain dotted paths the package uses (no wildcard/modifier syntax).
-/

/-- Canonical JSON-like tree (object / array / scalar).  Object fields keep
their serialized order; the converter and `json.Marshal` produce them sorted
by key.  Numbers are integers here: every number appearing in the claims is
integral after conversion (Go renders float64 `1.0` as `1`). -/
inductive Json where
  | null : Json
  | bool (b : Bool) : Json
  | num (n : Int) : Json
  | str (s : String) : Json
  | arr (elems : List Json) : Json
  | obj (fields : List (String × Json)) : Json

/-- Split a character list on a separator character (one-character
`strings.Split`, as gjson/sjson split dotted paths and `filepath.Base`
splits on slashes). -/
def splitOnChar (sep : Char) : List Char → List (List Char)
  | [] => [[]]
  | c :: cs =>
      if c = sep then [] :: splitOnChar sep cs
      else
        match splitOnChar sep cs with
        | [] => [[c]]
        | g :: gs => (c :: g) :: gs

/-- The segments of a dotted path. -/
def splitDots (s : String) : List String :=
  (splitOnChar '.' s.data).map String.mk

/-- Go `strings.HasPrefix`. -/
def strStartsWith (s pfx : String) : Bool :=
  pfx.data.isPrefixOf s.data

/-- Go string slicing `s[n:]` (the prefix sliced off is ASCII, so bytes
and characters agree). -/
def strDrop (s : String) (n : Nat) : String :=
  String.mk (s.data.drop n)

/-- Go `strings.IndexByte(s, '=')` followed by the two slices around the
first `=`: none when there is no `=`. -/
def breakAtEq : List Char → Option (List Char × List Char)
  | [] => none
  | c :: cs =>
      if c = '=' then some ([], cs)
      else (breakAtEq cs).map (fun p => (c :: p.1, p.2))

/-- The environment-variable namespace, `const keyPrefix = "CONFIGSET."`. -/
def keyPrefix : String := "CONFIGSET."

/-- Source: `extractKVs` in configset.go.  Keeps entries that start with the
prefix and contain a `=`, splitting at the first `=`; order preserved. -/
def extractKVs (environment : List String) : List (String × String) :=
  environment.filterMap fun rawKV =>
    if strStartsWith rawKV keyPrefix then
      match breakAtEq rawKV.data with
      | none => none
      | some kv => some (String.mk kv.1, String.mk kv.2)
    else none

/-- A path segment addresses an array element when it is a nonempty digit
string (sjson/gjson treat such segments as indexes inside arrays). -/
def isNatSeg (s : String) : Bool :=
  s ≠ "" && s.data.all Char.isDigit

/-- Numeric value of a digit-string segment. -/
def segToNat (s : String) : Nat :=
  s.data.foldl (fun n c => n * 10 + (c.toNat - 48)) 0

/-- Replace the value of the first occurrence of key `k` in an association
list (sjson patches the value in place, keeping field order). -/
def replaceFirst (fs : List (String × Json)) (k : String) (u : Json) :
    List (String × Json) :=
  match fs with
  | [] => []
  | (k', v) :: rest =>
      if k' = k then (k', u) :: rest else (k', v) :: replaceFirst rest k u

/-- Modelled from the spec: container creation of the patch applier (§4.4),
the part of `tidwall/sjson` exercised by `overwriteConfigSet` when a path
component is missing — create an object for a field-name segment and an
array for a numeric segment, minimally extended (absent array slots are
null) to accommodate the terminal value. -/
def buildValue : List String → Json → Json
  | [], v => v
  | s :: rest, v =>
      if isNatSeg s then
        Json.arr (List.replicate (segToNat s) Json.null ++ [buildValue rest v])
      else
        Json.obj [(s, buildValue rest v)]

/-- Modelled from the spec: the write of the patch applier (§4.4), i.e. the
behavior of `sjson.SetRawBytesOptions` on a plain dotted path, one segment
at a time.  Walk the tree; replace at the terminal segment; descend through
existing containers; create missing containers (objects for names, arrays
for indexes); replace a scalar standing where a container is needed; a
non-numeric segment against an array is the structural type conflict the
spec calls a `PathError`. -/
def setSegs : List String → Json → Json → Except String Json
  | [], _, v => .ok v
  | s :: rest, Json.obj fs, v =>
      match fs.lookup s with
      | some u =>
          match setSegs rest u v with
          | .error e => .error e
          | .ok u' => .ok (Json.obj (replaceFirst fs s u'))
      | none => .ok (Json.obj (fs ++ [(s, buildValue rest v)]))
  | s :: rest, Json.arr xs, v =>
      if isNatSeg s then
        match xs[segToNat s]? with
        | some u =>
            match setSegs rest u v with
            | .error e => .error e
            | .ok u' => .ok (Json.arr (xs.set (segToNat s) u'))
        | none =>
            .ok (Json.arr (xs ++ List.replicate (segToNat s - xs.length) Json.null
                  ++ [buildValue rest v]))
      else .error "type conflict: non-numeric path segment against an array"
  | s :: rest, _, v => .ok (buildValue (s :: rest) v)

/-- Modelled from the spec: `sjson.SetRawBytesOptions` at the path level —
an empty path is rejected with the message asserted by the repository's
test ("set json value; path=\"\": path cannot be empty"); otherwise the
path is split on dots and written segment by segment. -/
def setRaw (t : Json) (path : String) (v : Json) : Except String Json :=
  if path = "" then .error "path cannot be empty"
  else setSegs (splitDots path) t v

/-- Modelled from the spec: the read of `gjson.GetBytes` on a plain dotted
path — objects are entered by key (the first matching field), arrays by
numeric index; any other combination, including a missing key or an
out-of-range index, finds nothing. -/
def getSegs : List String → Json → Option Json
  | [], v => some v
  | s :: rest, Json.obj fs => (fs.lookup s).bind (getSegs rest)
  | s :: rest, Json.arr xs =>
      if isNatSeg s then (xs[segToNat s]?).bind (getSegs rest) else none
  | _ :: _, _ => none

/-- Modelled from the spec: `gjson.GetBytes` splits the path on dots and
walks the document.  Note there is no special case for the empty path: it
is looked up as the single segment `""` (gjson addresses the whole document
only through `@this`, which this package never uses). -/
def jsonGet (t : Json) (path : String) : Option Json :=
  getSegs (splitDots path) t

/-- Errors `ConfigSet.Load` can surface, one constructor per `fmt.Errorf`
wrapping site in configset.go, carrying the same payloads. -/
inductive LoadError where
  | findFiles (pattern : String) (cause : String) : LoadError
  | readFile (filePath : String) (cause : String) : LoadError
  | convertFile (filePath : String) (cause : String) : LoadError
  | convertValue (key : String) (value : String) (cause : String) : LoadError
  | setValue (path : String) (cause : String) : LoadError
deriving DecidableEq

/-- Key-ordering relation used when sorting association lists by key. -/
def keyLe {α : Type} (a b : String × α) : Prop := a.1 ≤ b.1

instance {α : Type} : DecidableRel (keyLe (α := α)) :=
  fun a b =>
    decidable_of_iff (¬ b.1.data < a.1.data) (by
      have h := @String.lt_iff_toList_lt b.1 a.1
      rw [show b.1.toList = b.1.data from rfl, show a.1.toList = a.1.data from rfl] at h
      rw [← h]
      exact not_lt)

instance {α : Type} : IsTotal (String × α) keyLe :=
  ⟨fun a b => le_total a.1 b.1⟩

instance {α : Type} : IsTrans (String × α) keyLe :=
  ⟨fun _ _ _ h h' => le_trans h h'⟩

/-- Stable sort by key (insertion sort, as a specification of a stable
sort: equal keys keep their input order). -/
def sortByKey {α : Type} (l : List (String × α)) : List (String × α) :=
  List.insertionSort keyLe l

/-- Go map insertion: overwrite the entry if the key is present, append
otherwise (used while `gatherConfigs` fills `rawConfigs`). -/
def mapInsert {α : Type} (m : List (String × α)) (k : String) (v : α) :
    List (String × α) :=
  if (m.lookup k).isSome then
    m.map (fun kv => if kv.1 = k then (k, v) else kv)
  else m ++ [(k, v)]

/-- Source: `configName := strings.TrimSuffix(filepath.Base(filePath), ".yaml")`
with `filepath.Base` modelled as the part after the last slash. -/
def configName (filePath : String) : String :=
  let base := (splitOnChar '/' filePath.data).getLastD filePath.data
  if ".yaml".data.isSuffixOf base then String.mk (base.take (base.length - 5))
  else String.mk base

/-- Source: `gatherConfigs` in configset.go.  The directory listing and the
per-file reads are data here (the file system is a parameter of `Load` in
the source as well): `listing` is the outcome of `afero.Glob`, each entry a
file path with the outcome of `afero.ReadFile`.  Every file is converted by
`conv` (the YAML converter, whose object output carries keys sorted, as
`json.Marshal` of a Go map does), keyed by `configName`, and the resulting
map is marshalled — i.e. emitted with its keys sorted. -/
def gatherConfigs (pattern : String)
    (listing : Except String (List (String × Except String String)))
    (conv : String → Except String Json) : Except LoadError Json :=
  match listing with
  | .error cause => .error (.findFiles pattern cause)
  | .ok files =>
      let step := fun (m : List (String × Json)) (f : String × Except String String) =>
        match f.2 with
        | .error cause => Except.error (LoadError.readFile f.1 cause)
        | .ok content =>
            match conv content with
            | .error cause => Except.error (LoadError.convertFile f.1 cause)
            | .ok t => Except.ok (mapInsert m (configName f.1) t)
      match files.foldlM step [] with
      | .error e => .error e
      | .ok m => .ok (Json.obj (sortByKey m))

/-- The body of the patch loop of `overwriteConfigSet`: convert one raw
override value with `conv` and write it at the key's path (the key minus
`keyPrefix`), wrapping failures exactly as the two `fmt.Errorf` sites do. -/
def applyKVs (conv : String → Except String Json) :
    Json → List (String × String) → Except LoadError Json
  | raw, [] => .ok raw
  | raw, kv :: kvs =>
      match conv kv.2 with
      | .error cause => .error (.convertValue kv.1 kv.2 cause)
      | .ok data =>
          match setRaw raw (strDrop kv.1 keyPrefix.length) data with
          | .error cause => .error (.setValue (strDrop kv.1 keyPrefix.length) cause)
          | .ok raw' => applyKVs conv raw' kvs

/-- Modelled from the spec: `overwriteConfigSet` of the package's current
configset.go, which is absent from the provided sources (src/ carries only
earlier revisions of the file next to the current test file).  The loop
body and error wrapping follow the surviving revisions verbatim
(`applyKVs`).  The application order of the extracted pairs is the one
pinned by the current test `TestLoadConfigSet` ("environment with good
overriding values"): the override `CONFIGSET.gogo.version.y=22`, listed
before `CONFIGSET.gogo.version={...}`, survives in the final tree, so the
pairs are applied in stable sorted key order (deterministic under the
arbitrary ordering of a real process environment, and making deeper paths
apply after their parents) rather than in raw input order as the earlier
revisions did. -/
def overwriteConfigSet (rawConfigSet : Json) (environment : List String)
    (conv : String → Except String Json) : Except LoadError Json :=
  applyKVs conv rawConfigSet (sortByKey (extractKVs environment))

/-- Source: `type configSet struct { raw json.RawMessage }`; `raw` is nil
until the first successful `Load`. -/
structure ConfigSet where
  raw : Option Json

/-- Source: `func (cs *configSet) Load(fs afero.Fs, dirPath string,
environment []string) error` — gather, then patch, and only on full
success store the new tree; on any failure the previous state is kept.
The returned pair is (state after the call, error). -/
def ConfigSet.Load (cs : ConfigSet) (dirPath : String)
    (listing : Except String (List (String × Except String String)))
    (environment : List String) (conv : String → Except String Json) :
    ConfigSet × Option LoadError :=
  match gatherConfigs (dirPath ++ "/*.yaml") listing conv with
  | .error e => (cs, some e)
  | .ok raw =>
      match overwriteConfigSet raw environment conv with
      | .error e => (cs, some e)
      | .ok raw' => (⟨some raw'⟩, none)

/-- A typed read target: Go's `json.Unmarshal` into a caller-supplied value
of some type, abstracted as the type's name (`%T`) plus its decoding
function. -/
structure Decoder (α : Type) where
  typeName : String
  decode : Json → Except String α

/-- Errors of `ConfigSet.ReadValue`: the `ErrValueNotFound` sentinel wrapped
with the path, or the `json.Unmarshal` failure wrapped with path and target
type.  `errors.Is(err, ErrValueNotFound)` corresponds to matching the
`valueNotFound` constructor. -/
inductive ReadError where
  | valueNotFound (path : String) : ReadError
  | unmarshal (path : String) (configType : String) (cause : String) : ReadError
deriving DecidableEq

/-- Source: `func (cs *configSet) ReadValue(path string, config interface{})
error` — look the path up with gjson (an empty raw result means the value
does not exist), then unmarshal into the target. -/
def readValueTree {α : Type} (raw : Json) (path : String) (d : Decoder α) :
    Except ReadError α :=
  match jsonGet raw path with
  | none => .error (.valueNotFound path)
  | some v =>
      match d.decode v with
      | .error cause => .error (.unmarshal path d.typeName cause)
      | .ok a => .ok a

/-- `ReadValue` on the config set: with no loaded document gjson scans nil
bytes and finds nothing, so every path reports `ErrValueNotFound`. -/
def ConfigSet.ReadValue {α : Type} (cs : ConfigSet) (path : String)
    (d : Decoder α) : Except ReadError α :=
  match cs.raw with
  | none => .error (.valueNotFound path)
  | some t => readValueTree t path d

/-- One decimal digit character. -/
def digitChar (d : Nat) : Char :=
  if d = 0 then '0' else if d = 1 then '1' else if d = 2 then '2'
  else if d = 3 then '3' else if d = 4 then '4' else if d = 5 then '5'
  else if d = 6 then '6' else if d = 7 then '7' else if d = 8 then '8'
  else '9'

/-- One lowercase hexadecimal digit character. -/
def hexDigitChar (d : Nat) : Char :=
  if d < 10 then digitChar d
  else if d = 10 then 'a' else if d = 11 then 'b' else if d = 12 then 'c'
  else if d = 13 then 'd' else if d = 14 then 'e' else 'f'

/-- Decimal digits with an explicit recursion bound (`n` shrinks by a
factor of ten each step, so any bound above `n` suffices). -/
def natCharsAux : Nat → Nat → List Char
  | 0, _ => []
  | fuel + 1, n =>
    if n < 10 then [digitChar n]
    else natCharsAux fuel (n / 10) ++ [digitChar (n % 10)]

/-- Decimal digits of a natural number, most significant first (the digit
characters Go's integer formatting produces). -/
def natChars (n : Nat) : List Char := natCharsAux (n + 1) n

theorem natCharsAux_fuel : ∀ (n f g : Nat), n < f → n < g →
    natCharsAux f n = natCharsAux g n := by
  intro n
  induction n using Nat.strong_induction_on with
  | _ n ih =>
      intro f g hf hg
      match f, g with
      | f' + 1, g' + 1 =>
        simp only [natCharsAux]
        by_cases h : n < 10
        · simp [h]
        · rw [if_neg h, if_neg h]
          have hlt : n / 10 < n := Nat.div_lt_self (by omega) (by norm_num)
          rw [ih (n / 10) hlt f' g' (by omega) (by omega)]

/-- `natChars` satisfies the by-tens recursion of Go's integer
formatting. -/
theorem natChars_eq (n : Nat) : natChars n =
    if n < 10 then [digitChar n]
    else natChars (n / 10) ++ [digitChar (n % 10)] := by
  unfold natChars
  simp only [natCharsAux]
  by_cases h : n < 10
  · simp [h]
  · rw [if_neg h, if_neg h]
    have hlt : n / 10 < n := Nat.div_lt_self (by omega) (by norm_num)
    rw [natCharsAux_fuel (n / 10) n (n / 10 + 1) hlt (Nat.lt_succ_self _)]
    simp only [natCharsAux]

/-- Decimal text of an integer. -/
def intChars (n : Int) : List Char :=
  if n < 0 then '-' :: natChars n.natAbs else natChars n.natAbs

/-- Modelled from the spec: the string escaping of Go's `encoding/json`
encoder (which also produced the stored bytes via `json.Marshal` inside the
YAML converter): quote, backslash, the short control escapes, `\u00XX` for
the remaining control characters, and the HTML-safe escapes. -/
def escapeChar (c : Char) : List Char :=
  if c = '"' then ['\\', '"']
  else if c = '\\' then ['\\', '\\']
  else if c = '\n' then ['\\', 'n']
  else if c = '\r' then ['\\', 'r']
  else if c = '\t' then ['\\', 't']
  else if c = '<' then "\\u003c".data
  else if c = '>' then "\\u003e".data
  else if c = '&' then "\\u0026".data
  else if c.toNat < 32 then
    "\\u00".data ++ [hexDigitChar (c.toNat / 16), hexDigitChar (c.toNat % 16)]
  else [c]

/-- A JSON string literal: quoted, characters escaped. -/
def strChars (s : String) : List Char :=
  '"' :: s.data.foldr (fun c acc => escapeChar c ++ acc) [] ++ ['"']

mutual

/-- Modelled from the spec: the compact serialization of the stored tree —
the byte form `json.Marshal` produces and `Dump("", "")` returns verbatim:
no whitespace, object fields in stored order. -/
def compactChars : Json → List Char
  | Json.null => "null".data
  | Json.bool true => "true".data
  | Json.bool false => "false".data
  | Json.num n => intChars n
  | Json.str s => strChars s
  | Json.arr xs => '[' :: compactArr xs ++ [']']
  | Json.obj fs => '{' :: compactObj fs ++ ['}']

/-- Comma-separated compact elements of an array. -/
def compactArr : List Json → List Char
  | [] => []
  | [x] => compactChars x
  | x :: xs => compactChars x ++ ',' :: compactArr xs

/-- Comma-separated compact `"key":value` fields of an object. -/
def compactObj : List (String × Json) → List Char
  | [] => []
  | [kv] => strChars kv.1 ++ ':' :: compactChars kv.2
  | kv :: fs => strChars kv.1 ++ ':' :: compactChars kv.2 ++ ',' :: compactObj fs

end

/-- Compact serialization as a string. -/
def Json.compact (t : Json) : String := ⟨compactChars t⟩

/-- The line break `json.Indent` emits: a newline, the prefix, and one
indent unit per nesting level. -/
def nlChars (pre ind : String) (depth : Nat) : List Char :=
  '\n' :: pre.data ++ (List.replicate depth ind.data).flatten

mutual

/-- Modelled from the spec: Go's `json.Indent` applied to the compact
bytes — scalars stay compact, each element of a non-empty container starts
on its own deeper-indented line, the closing bracket on its own line at
the enclosing depth, keys rendered as `"key": `. -/
def indentChars (pre ind : String) (depth : Nat) : Json → List Char
  | Json.arr [] => "[]".data
  | Json.obj [] => "{}".data
  | Json.arr xs => '[' :: indentArr pre ind depth xs ++ nlChars pre ind depth ++ [']']
  | Json.obj fs => '{' :: indentObj pre ind depth fs ++ nlChars pre ind depth ++ ['}']
  | t => compactChars t

/-- Elements of a non-empty array, each on its own line. -/
def indentArr (pre ind : String) (depth : Nat) : List Json → List Char
  | [] => []
  | [x] => nlChars pre ind (depth + 1) ++ indentChars pre ind (depth + 1) x
  | x :: xs => nlChars pre ind (depth + 1) ++ indentChars pre ind (depth + 1) x
      ++ ',' :: indentArr pre ind depth xs

/-- Fields of a non-empty object, each on its own line. -/
def indentObj (pre ind : String) (depth : Nat) : List (String × Json) → List Char
  | [] => []
  | [kv] => nlChars pre ind (depth + 1) ++ strChars kv.1 ++ ':' :: ' ' ::
      indentChars pre ind (depth + 1) kv.2
  | kv :: fs => nlChars pre ind (depth + 1) ++ strChars kv.1 ++ ':' :: ' ' ::
      indentChars pre ind (depth + 1) kv.2 ++ ',' :: indentObj pre ind depth fs

end

/-- Source: `func (cs *configSet) Dump(prefix string, indention string)
json.RawMessage` — when both formatting strings are empty, a verbatim copy
of the stored compact bytes; otherwise `json.Indent` output plus a single
appended newline byte. -/
def dumpTree (t : Json) (pre indention : String) : String :=
  if pre.length + indention.length = 0 then t.compact
  else ⟨indentChars pre indention 0 t ++ ['\n']⟩

/-- `Dump` on the config set (nil stored bytes dump as empty). -/
def ConfigSet.Dump (cs : ConfigSet) (pre indention : String) : String :=
  match cs.raw with
  | none => if pre.length + indention.length = 0 then "" else "\n"
  | some t => dumpTree t pre indention

/-! ## Association list and list-indexing helper lemmas -/

theorem lookup_cons (k a : String) (v : Json) (l : List (String × Json)) :
    ((a, v) :: l).lookup k = if a = k then some v else l.lookup k := by
  by_cases h : a = k
  · simp [List.lookup, h]
  · have hb : (k == a) = false := by
      simp only [beq_eq_false_iff_ne, ne_eq]
      exact fun hh => h hh.symm
    simp [List.lookup, hb, h]

theorem lookup_replaceFirst_self (fs : List (String × Json)) (s : String)
    (u u' : Json) (h : fs.lookup s = some u) :
    (replaceFirst fs s u').lookup s = some u' := by
  induction fs with
  | nil => simp [List.lookup] at h
  | cons kv rest ih =>
      obtain ⟨k, v⟩ := kv
      rw [lookup_cons] at h
      by_cases hk : k = s
      · simp [replaceFirst, hk, lookup_cons]
      · rw [if_neg hk] at h
        simp only [replaceFirst, if_neg hk]
        rw [lookup_cons, if_neg hk]
        exact ih h

theorem lookup_replaceFirst_ne (fs : List (String × Json)) (s k : String)
    (u' : Json) (h : k ≠ s) :
    (replaceFirst fs s u').lookup k = fs.lookup k := by
  induction fs with
  | nil => simp [replaceFirst]
  | cons kv rest ih =>
      obtain ⟨k', v⟩ := kv
      by_cases hk : k' = s
      · have hne : ¬ k' = k := by
          intro hh
          exact h (hh ▸ hk)
        simp only [replaceFirst, if_pos hk]
        rw [lookup_cons, lookup_cons, if_neg hne, if_neg hne]
      · simp only [replaceFirst, if_neg hk]
        rw [lookup_cons, lookup_cons]
        by_cases hkk : k' = k
        · simp [hkk]
        · rw [if_neg hkk, if_neg hkk]
          exact ih

theorem replaceFirst_replaceFirst (fs : List (String × Json)) (s : String)
    (x y : Json) :
    replaceFirst (replaceFirst fs s x) s y = replaceFirst fs s y := by
  induction fs with
  | nil => simp [replaceFirst]
  | cons kv rest ih =>
      obtain ⟨k, v⟩ := kv
      by_cases hk : k = s
      · simp [replaceFirst, hk]
      · simp [replaceFirst, hk, ih]

theorem lookup_append (fs gs : List (String × Json)) (k : String) :
    (fs ++ gs).lookup k =
      match fs.lookup k with
      | some v => some v
      | none => gs.lookup k := by
  induction fs with
  | nil => simp [List.lookup]
  | cons kv rest ih =>
      obtain ⟨k', v⟩ := kv
      rw [List.cons_append, lookup_cons, lookup_cons]
      by_cases hk : k' = k
      · simp [hk]
      · rw [if_neg hk, if_neg hk, ih]

theorem lookup_append_none (fs : List (String × Json)) (s : String) (x : Json)
    (h : fs.lookup s = none) : (fs ++ [(s, x)]).lookup s = some x := by
  rw [lookup_append, h]
  simp [lookup_cons]

theorem lookup_append_some (fs gs : List (String × Json)) (k : String) (w : Json)
    (h : fs.lookup k = some w) : (fs ++ gs).lookup k = some w := by
  rw [lookup_append, h]

theorem replaceFirst_append_of_none (fs : List (String × Json)) (s : String)
    (x y : Json) (h : fs.lookup s = none) :
    replaceFirst (fs ++ [(s, x)]) s y = fs ++ [(s, y)] := by
  induction fs with
  | nil => simp [replaceFirst]
  | cons kv rest ih =>
      obtain ⟨k, v⟩ := kv
      rw [lookup_cons] at h
      by_cases hk : k = s
      · rw [if_pos hk] at h; cases h
      · rw [if_neg hk] at h
        simp [replaceFirst, hk, ih h]

theorem set_append_right (l1 l2 : List Json) (k : Nat) (v : Json) :
    (l1 ++ l2).set (l1.length + k) v = l1 ++ l2.set k v := by
  induction l1 with
  | nil => simp
  | cons x xs ih =>
      simp only [List.cons_append, List.length_cons]
      rw [Nat.succ_add]
      simp [ih]

theorem getElem?_append_left' (l1 l2 : List Json) (i : Nat) (h : i < l1.length) :
    (l1 ++ l2)[i]? = l1[i]? := by
  rw [List.getElem?_append, if_pos h]

theorem getElem?_append_right' (l1 l2 : List Json) (i : Nat) (h : l1.length ≤ i) :
    (l1 ++ l2)[i]? = l2[i - l1.length]? := by
  rw [List.getElem?_append, if_neg (not_lt.mpr h)]

theorem replicate_append_getElem (n : Nat) (y : Json) :
    (List.replicate n Json.null ++ [y])[n]? = some y := by
  rw [getElem?_append_right' _ _ _ (by simp)]
  simp

theorem replicate_append_set (n : Nat) (x y : Json) :
    (List.replicate n Json.null ++ [x]).set n y = List.replicate n Json.null ++ [y] := by
  simp

theorem getElem?_set_self' (xs : List Json) (i : Nat) (u : Json)
    (h : i < xs.length) : (xs.set i u)[i]? = some u := by
  rw [List.getElem?_set_self']
  simp [h]

theorem getElem?_set_ne' (xs : List Json) (i j : Nat) (u : Json) (h : i ≠ j) :
    (xs.set i u)[j]? = xs[j]? := by
  rw [List.getElem?_set_ne h]

/-! ## Structural lemmas about the patch write and the path read -/

theorem setSegs_buildValue (segs : List String) (a b : Json) :
    setSegs segs (buildValue segs a) b = .ok (buildValue segs b) := by
  induction segs with
  | nil => simp [setSegs, buildValue]
  | cons s rest ih =>
      by_cases hs : isNatSeg s
      · simp only [buildValue, if_pos hs, setSegs, hs, if_pos]
        rw [replicate_append_getElem]
        simp only [ih]
        rw [replicate_append_set]
      · simp only [buildValue, if_neg hs, setSegs]
        rw [lookup_cons, if_pos rfl]
        simp only [ih]
        simp [replaceFirst]

theorem getSegs_buildValue (segs : List String) (v : Json) :
    getSegs segs (buildValue segs v) = some v := by
  induction segs with
  | nil => simp [getSegs, buildValue]
  | cons s rest ih =>
      by_cases hs : isNatSeg s
      · simp only [buildValue, if_pos hs, getSegs, hs, if_pos]
        rw [replicate_append_getElem]
        simp [ih]
      · simp only [buildValue, if_neg hs, getSegs]
        rw [lookup_cons, if_pos rfl]
        simp [ih]

theorem setSegs_error_congr (segs : List String) (t : Json) (a b : Json)
    (e : String) (h : setSegs segs t a = .error e) :
    setSegs segs t b = .error e := by
  induction segs generalizing t with
  | nil => simp [setSegs] at h
  | cons s rest ih =>
      cases t with
      | obj fs =>
          cases hl : fs.lookup s with
          | none => simp [setSegs, hl] at h
          | some u =>
              cases hrec : setSegs rest u a with
              | error e' =>
                  simp [setSegs, hl, hrec] at h
                  subst h
                  simp [setSegs, hl, ih u hrec]
              | ok u' => simp [setSegs, hl, hrec] at h
      | arr xs =>
          by_cases hs : isNatSeg s
          · cases hl : xs[segToNat s]? with
            | none => simp [setSegs, hs, hl] at h
            | some u =>
                cases hrec : setSegs rest u a with
                | error e' =>
                    simp [setSegs, hs, hl, hrec] at h
                    subst h
                    simp [setSegs, hs, hl, ih u hrec]
                | ok u' => simp [setSegs, hs, hl, hrec] at h
          · simp [setSegs, hs] at h ⊢
            exact h
      | null => simp [setSegs] at h
      | bool bb => simp [setSegs] at h
      | num n => simp [setSegs] at h
      | str ss => simp [setSegs] at h

theorem setSegs_setSegs (segs : List String) (t : Json) (a b u : Json)
    (h : setSegs segs t a = .ok u) :
    setSegs segs u b = setSegs segs t b := by
  induction segs generalizing t u with
  | nil => simp [setSegs]
  | cons s rest ih =>
      cases t with
      | obj fs =>
          cases hl : fs.lookup s with
          | none =>
              simp [setSegs, hl] at h
              subst h
              simp [setSegs, lookup_append_none fs s _ hl, setSegs_buildValue,
                replaceFirst_append_of_none fs s _ _ hl, hl]
          | some u0 =>
              cases hrec : setSegs rest u0 a with
              | error e => simp [setSegs, hl, hrec] at h
              | ok u0' =>
                  simp [setSegs, hl, hrec] at h
                  subst h
                  have hlook := lookup_replaceFirst_self fs s u0 u0' hl
                  simp only [setSegs, hlook, hl]
                  rw [ih u0 u0' hrec]
                  cases hrec2 : setSegs rest u0 b with
                  | error e => rfl
                  | ok w => simp [replaceFirst_replaceFirst]
      | arr xs =>
          by_cases hs : isNatSeg s
          · cases hl : xs[segToNat s]? with
            | none =>
                simp [setSegs, hs, hl] at h
                subst h
                have hlen : xs.length ≤ segToNat s := by
                  rw [List.getElem?_eq_none_iff] at hl
                  exact hl
                have hidx : (xs ++ (List.replicate (segToNat s - xs.length) Json.null
                    ++ [buildValue rest a]))[segToNat s]? = some (buildValue rest a) := by
                  rw [getElem?_append_right' _ _ _ hlen, replicate_append_getElem]
                have hset : (xs ++ (List.replicate (segToNat s - xs.length) Json.null
                    ++ [buildValue rest a])).set (segToNat s) (buildValue rest b) =
                    xs ++ (List.replicate (segToNat s - xs.length) Json.null
                    ++ [buildValue rest b]) := by
                  have h2 := set_append_right xs
                    (List.replicate (segToNat s - xs.length) Json.null ++ [buildValue rest a])
                    (segToNat s - xs.length) (buildValue rest b)
                  rw [show xs.length + (segToNat s - xs.length) = segToNat s by omega] at h2
                  rw [h2, replicate_append_set]
                simp [setSegs, hs, hidx, hl, setSegs_buildValue, hset]
            | some u0 =>
                cases hrec : setSegs rest u0 a with
                | error e => simp [setSegs, hs, hl, hrec] at h
                | ok u0' =>
                    simp [setSegs, hs, hl, hrec] at h
                    subst h
                    have hlt : segToNat s < xs.length := by
                      by_contra hc
                      rw [List.getElem?_eq_none_iff.mpr (Nat.le_of_not_lt hc)] at hl
                      cases hl
                    have hidx2 : (xs.set (segToNat s) u0')[segToNat s]? = some u0' := by
                      apply getElem?_set_self'
                      exact hlt
                    simp only [setSegs, hs, if_pos, hidx2, hl]
                    rw [ih u0 u0' hrec]
                    cases hrec2 : setSegs rest u0 b with
                    | error e => rfl
                    | ok w => simp [List.set_set]
          · simp [setSegs, hs] at h
      | null =>
          simp [setSegs] at h
          subst h
          simp [setSegs, setSegs_buildValue]
      | bool bb =>
          simp [setSegs] at h
          subst h
          simp [setSegs, setSegs_buildValue]
      | num n =>
          simp [setSegs] at h
          subst h
          simp [setSegs, setSegs_buildValue]
      | str ss =>
          simp [setSegs] at h
          subst h
          simp [setSegs, setSegs_buildValue]

theorem getSegs_setSegs (segs : List String) (t v u : Json)
    (h : setSegs segs t v = .ok u) : getSegs segs u = some v := by
  induction segs generalizing t u with
  | nil =>
      simp [setSegs] at h
      subst h
      simp [getSegs]
  | cons s rest ih =>
      cases t with
      | obj fs =>
          cases hl : fs.lookup s with
          | none =>
              simp [setSegs, hl] at h
              subst h
              simp [getSegs, lookup_append_none fs s _ hl, getSegs_buildValue]
          | some u0 =>
              cases hrec : setSegs rest u0 v with
              | error e => simp [setSegs, hl, hrec] at h
              | ok u0' =>
                  simp [setSegs, hl, hrec] at h
                  subst h
                  simp [getSegs, lookup_replaceFirst_self fs s u0 u0' hl, ih u0 u0' hrec]
      | arr xs =>
          by_cases hs : isNatSeg s
          · cases hl : xs[segToNat s]? with
            | none =>
                simp [setSegs, hs, hl] at h
                subst h
                have hlen : xs.length ≤ segToNat s := by
                  rw [List.getElem?_eq_none_iff] at hl
                  exact hl
                have hidx : (xs ++ (List.replicate (segToNat s - xs.length) Json.null
                    ++ [buildValue rest v]))[segToNat s]? = some (buildValue rest v) := by
                  rw [getElem?_append_right' _ _ _ hlen, replicate_append_getElem]
                simp [getSegs, hs, hidx, getSegs_buildValue]
            | some u0 =>
                cases hrec : setSegs rest u0 v with
                | error e => simp [setSegs, hs, hl, hrec] at h
                | ok u0' =>
                    simp [setSegs, hs, hl, hrec] at h
                    subst h
                    have hlt : segToNat s < xs.length := by
                      by_contra hc
                      rw [List.getElem?_eq_none_iff.mpr (Nat.le_of_not_lt hc)] at hl
                      cases hl
                    simp [getSegs, hs, getElem?_set_self' xs _ u0' hlt, ih u0 u0' hrec]
          · simp [setSegs, hs] at h
      | null =>
          simp [setSegs] at h
          subst h
          simp [getSegs_buildValue]
      | bool bb =>
          simp [setSegs] at h
          subst h
          simp [getSegs_buildValue]
      | num n =>
          simp [setSegs] at h
          subst h
          simp [getSegs_buildValue]
      | str ss =>
          simp [setSegs] at h
          subst h
          simp [getSegs_buildValue]

/-- Two segments alias the same address exactly when they are equal, or both
numeric with the same index value. -/
def segAlias (a b : String) : Bool :=
  a == b || (isNatSeg a && isNatSeg b && segToNat a == segToNat b)

/-- One segment list addresses a (non-strict) ancestor of another. -/
def addrPrefix : List String → List String → Bool
  | [], _ => true
  | _ :: _, [] => false
  | a :: l1, b :: l2 => segAlias a b && addrPrefix l1 l2

theorem getSegs_setSegs_frame (segs2 segs1 : List String) (t v u x : Json)
    (hset : setSegs segs2 t v = .ok u) (hget : getSegs segs1 t = some x)
    (h1 : addrPrefix segs1 segs2 = false) (h2 : addrPrefix segs2 segs1 = false) :
    getSegs segs1 u = some x := by
  induction segs2 generalizing segs1 t u x with
  | nil => simp [addrPrefix] at h2
  | cons s2 r2 ih =>
      cases segs1 with
      | nil => simp [addrPrefix] at h1
      | cons s1 r1 =>
          cases t with
          | obj fs =>
              cases hl1 : fs.lookup s1 with
              | none => simp [getSegs, hl1] at hget
              | some w1 =>
                  simp [getSegs, hl1] at hget
                  by_cases hkey : s1 = s2
                  · subst hkey
                    have halias : segAlias s1 s1 = true := by simp [segAlias]
                    simp only [addrPrefix, halias, Bool.true_and] at h1 h2
                    cases hl2 : fs.lookup s1 with
                    | none => rw [hl2] at hl1; cases hl1
                    | some w2 =>
                        rw [hl2] at hl1
                        cases hl1
                        cases hrec : setSegs r2 w1 v with
                        | error e => simp [setSegs, hl2, hrec] at hset
                        | ok w1' =>
                            simp [setSegs, hl2, hrec] at hset
                            subst hset
                            simp [getSegs, lookup_replaceFirst_self fs s1 w1 w1' hl2]
                            exact ih r1 w1 w1' x hrec hget h1 h2
                  · cases hl2 : fs.lookup s2 with
                    | none =>
                        simp [setSegs, hl2] at hset
                        subst hset
                        have : (fs ++ [(s2, buildValue r2 v)]).lookup s1 = some w1 :=
                          lookup_append_some fs _ s1 w1 hl1
                        simp [getSegs, this, hget]
                    | some w2 =>
                        cases hrec : setSegs r2 w2 v with
                        | error e => simp [setSegs, hl2, hrec] at hset
                        | ok w2' =>
                            simp [setSegs, hl2, hrec] at hset
                            subst hset
                            have : (replaceFirst fs s2 w2').lookup s1 = some w1 := by
                              rw [lookup_replaceFirst_ne fs s2 s1 w2' hkey]
                              exact hl1
                            simp [getSegs, this, hget]
          | arr xs =>
              by_cases hs1 : isNatSeg s1
              · by_cases hs2 : isNatSeg s2
                · cases hl1 : xs[segToNat s1]? with
                  | none => simp [getSegs, hs1, hl1] at hget
                  | some w1 =>
                      simp [getSegs, hs1, hl1] at hget
                      have hlt1 : segToNat s1 < xs.length := by
                        by_contra hc
                        rw [List.getElem?_eq_none_iff.mpr (Nat.le_of_not_lt hc)] at hl1
                        cases hl1
                      by_cases hidx : segToNat s1 = segToNat s2
                      · have halias : segAlias s1 s2 = true := by
                          simp [segAlias, hs1, hs2, hidx]
                        have halias2 : segAlias s2 s1 = true := by
                          simp [segAlias, hs1, hs2, hidx]
                        simp only [addrPrefix, halias, halias2, Bool.true_and] at h1 h2
                        cases hl2 : xs[segToNat s2]? with
                        | none => rw [← hidx, hl1] at hl2; cases hl2
                        | some w2 =>
                            rw [← hidx, hl1] at hl2
                            cases hl2
                            cases hrec : setSegs r2 w1 v with
                            | error e => simp [setSegs, hs2, ← hidx, hl1, hrec] at hset
                            | ok w1' =>
                                simp [setSegs, hs2, ← hidx, hl1, hrec] at hset
                                subst hset
                                simp [getSegs, hs1, getElem?_set_self' xs _ w1' hlt1]
                                exact ih r1 w1 w1' x hrec hget h1 h2
                      · cases hl2 : xs[segToNat s2]? with
                        | none =>
                            simp [setSegs, hs2, hl2] at hset
                            subst hset
                            have : (xs ++ (List.replicate (segToNat s2 - xs.length) Json.null
                                ++ [buildValue r2 v]))[segToNat s1]? = some w1 := by
                              rw [getElem?_append_left' _ _ _ hlt1]
                              exact hl1
                            simp [getSegs, hs1, this, hget]
                        | some w2 =>
                            cases hrec : setSegs r2 w2 v with
                            | error e => simp [setSegs, hs2, hl2, hrec] at hset
                            | ok w2' =>
                                simp [setSegs, hs2, hl2, hrec] at hset
                                subst hset
                                have : (xs.set (segToNat s2) w2')[segToNat s1]? = some w1 := by
                                  rw [getElem?_set_ne' xs _ _ w2' (fun hh => hidx hh.symm)]
                                  exact hl1
                                simp [getSegs, hs1, this, hget]
                · simp [setSegs, hs2] at hset
              · simp [getSegs, hs1] at hget
          | null => simp [getSegs] at hget
          | bool bb => simp [getSegs] at hget
          | num n => simp [getSegs] at hget
          | str ss => simp [getSegs] at hget

/-! ## Stable-sort lemmas -/

/-- The pairs of a key-value list carrying a given key, in order. -/
def filterKey {α : Type} (k : String) (l : List (String × α)) : List (String × α) :=
  l.filter (fun kv => kv.1 == k)

theorem filterKey_nil {α : Type} (k : String) : filterKey (α := α) k [] = [] := rfl

theorem filterKey_cons {α : Type} (k : String) (kv : String × α) (l : List (String × α)) :
    filterKey k (kv :: l) =
      if kv.1 = k then kv :: filterKey k l else filterKey k l := by
  by_cases h : kv.1 = k <;> simp [filterKey, h]

theorem filterKey_append {α : Type} (k : String) (l1 l2 : List (String × α)) :
    filterKey k (l1 ++ l2) = filterKey k l1 ++ filterKey k l2 := by
  simp [filterKey]

theorem mem_of_mem_filterKey {α : Type} {k : String} {kv : String × α}
    {l : List (String × α)} (h : kv ∈ filterKey k l) : kv ∈ l :=
  List.mem_of_mem_filter h

theorem key_of_mem_filterKey {α : Type} {k : String} {kv : String × α}
    {l : List (String × α)} (h : kv ∈ filterKey k l) : kv.1 = k := by
  have := List.of_mem_filter h
  simpa using this

theorem filterKey_eq_nil_iff {α : Type} (k : String) (l : List (String × α)) :
    filterKey k l = [] ↔ ∀ kv ∈ l, kv.1 ≠ k := by
  simp [filterKey, List.filter_eq_nil_iff]

/-- Inserting does not disturb which pairs carry a key, nor their order:
passed-over elements have strictly smaller keys and the new element lands
before every element of its own key. -/
theorem filterKey_orderedInsert (k : String) (x : String × String)
    (l : List (String × String)) :
    filterKey k (List.orderedInsert keyLe x l) =
      if x.1 = k then x :: filterKey k l else filterKey k l := by
  induction l with
  | nil => simp [List.orderedInsert, filterKey_cons]
  | cons b l' ih =>
      by_cases hxb : keyLe x b
      · rw [List.orderedInsert, if_pos hxb, filterKey_cons]
      · rw [List.orderedInsert, if_neg hxb, filterKey_cons, filterKey_cons, ih]
        have hblt : b.1 < x.1 := lt_of_not_le hxb
        by_cases hx : x.1 = k
        · have hbk : ¬ b.1 = k := fun hh => absurd (hx ▸ hh ▸ hblt) (lt_irrefl _)
          simp [hx, hbk]
        · simp [hx]

theorem filterKey_sortByKey (k : String) (l : List (String × String)) :
    filterKey k (sortByKey l) = filterKey k l := by
  induction l with
  | nil => simp [sortByKey, List.insertionSort]
  | cons x l' ih =>
      rw [sortByKey, List.insertionSort, filterKey_cons]
      rw [show List.insertionSort keyLe l' = sortByKey l' from rfl]
      rw [filterKey_orderedInsert, ih]

theorem orderedInsert_comm (x y : String × String) (l : List (String × String))
    (hne : x.1 ≠ y.1) :
    List.orderedInsert keyLe x (List.orderedInsert keyLe y l) =
      List.orderedInsert keyLe y (List.orderedInsert keyLe x l) := by
  have hanti : ¬ (keyLe x y ∧ keyLe y x) := fun hh => hne (le_antisymm hh.1 hh.2)
  have htot : keyLe x y ∨ keyLe y x := le_total x.1 y.1
  induction l with
  | nil =>
      simp only [List.orderedInsert]
      split_ifs with h1 h2 h2
      · exact absurd ⟨h1, h2⟩ hanti
      · rfl
      · rfl
      · rcases htot with h | h
        · exact absurd h h1
        · exact absurd h h2
  | cons b l' ih =>
      by_cases hxb : keyLe x b <;> by_cases hyb : keyLe y b
      · rcases htot with h | h
        · have h2 : ¬ keyLe y x := fun hh => hanti ⟨h, hh⟩
          simp [List.orderedInsert, hxb, hyb, h, h2]
        · have h2 : ¬ keyLe x y := fun hh => hanti ⟨hh, h⟩
          simp [List.orderedInsert, hxb, hyb, h, h2]
      · have hyx : ¬ keyLe y x :=
          not_le_of_lt (lt_of_le_of_lt hxb (lt_of_not_le hyb))
        simp [List.orderedInsert, hxb, hyb, hyx]
      · have hxy : ¬ keyLe x y :=
          not_le_of_lt (lt_of_le_of_lt hyb (lt_of_not_le hxb))
        simp [List.orderedInsert, hxb, hyb, hxy]
      · simp [List.orderedInsert, hxb, hyb, ih]

/-! ## Decomposition of sorted key-value lists into key classes -/

theorem filterKey_filterKey_ne {α : Type} (j k : String) (l : List (String × α))
    (h : j ≠ k) : filterKey j (filterKey k l) = [] := by
  rw [filterKey_eq_nil_iff]
  intro kv hkv
  rw [key_of_mem_filterKey hkv]
  exact fun hh => h hh.symm

theorem sorted_ge_extract (k : String) (S : List (String × String))
    (hs : List.Sorted keyLe S) (hge : ∀ y ∈ S, k ≤ y.1) :
    ∃ B, S = filterKey k S ++ B ∧ filterKey k B = [] := by
  induction S with
  | nil => exact ⟨[], by simp [filterKey]⟩
  | cons y S' ih =>
      rw [List.sorted_cons] at hs
      by_cases hy : y.1 = k
      · have hge' : ∀ z ∈ S', k ≤ z.1 := fun z hz => hy ▸ hs.1 z hz
        obtain ⟨B, hB1, hB2⟩ := ih hs.2 hge'
        refine ⟨B, ?_, hB2⟩
        rw [filterKey_cons, if_pos hy, List.cons_append, ← hB1]
      · have hlt : k < y.1 := lt_of_le_of_ne (hge y (List.mem_cons_self y S')) (fun hh => hy hh.symm)
        have hall : ∀ z ∈ y :: S', z.1 ≠ k := by
          intro z hz
          rcases List.mem_cons.mp hz with hz | hz
          · rw [hz]; exact fun hh => hy hh
          · have := hs.1 z hz
            exact fun hh => absurd (hh ▸ this) (not_le_of_lt hlt)
        refine ⟨y :: S', ?_, (filterKey_eq_nil_iff _ _).mpr hall⟩
        rw [(filterKey_eq_nil_iff _ _).mpr hall, List.nil_append]

theorem sorted_class_extract (k : String) (S : List (String × String))
    (hs : List.Sorted keyLe S) :
    ∃ A B, S = A ++ filterKey k S ++ B ∧ filterKey k A = [] ∧ filterKey k B = [] := by
  induction S with
  | nil => exact ⟨[], [], by simp [filterKey], rfl, rfl⟩
  | cons kv S' ih =>
      rw [List.sorted_cons] at hs
      by_cases hk : kv.1 = k
      · have hge : ∀ y ∈ kv :: S', k ≤ y.1 := by
          intro y hy
          rcases List.mem_cons.mp hy with hy | hy
          · rw [hy, hk]
          · exact hk ▸ hs.1 y hy
        obtain ⟨B, hB1, hB2⟩ :=
          sorted_ge_extract k (kv :: S') (List.sorted_cons.mpr hs) hge
        exact ⟨[], B, by rw [List.nil_append, ← hB1], rfl, hB2⟩
      · obtain ⟨A, B, h1, h2, h3⟩ := ih hs.2
        refine ⟨kv :: A, B, ?_, ?_, h3⟩
        · rw [filterKey_cons, if_neg hk]
          simp only [List.cons_append]
          rw [← h1]
        · rw [filterKey_cons, if_neg hk, h2]

/-! ## The override fold: one patch step, and same-key collapse -/

/-- One iteration of the patch loop of `overwriteConfigSet`: convert the
raw value, then write it at the key's path. -/
def stepKV (conv : String → Except String Json) (raw : Json)
    (kv : String × String) : Except LoadError Json :=
  match conv kv.2 with
  | .error cause => .error (.convertValue kv.1 kv.2 cause)
  | .ok data =>
      match setRaw raw (strDrop kv.1 keyPrefix.length) data with
      | .error cause => .error (.setValue (strDrop kv.1 keyPrefix.length) cause)
      | .ok raw' => .ok raw'

theorem applyKVs_cons (conv : String → Except String Json) (t : Json)
    (kv : String × String) (kvs : List (String × String)) :
    applyKVs conv t (kv :: kvs) =
      match stepKV conv t kv with
      | .error e => .error e
      | .ok u => applyKVs conv u kvs := by
  cases hcv : conv kv.2 with
  | error c => simp [applyKVs, stepKV, hcv]
  | ok data =>
      cases hsr : setRaw t (strDrop kv.1 keyPrefix.length) data with
      | error c => simp [applyKVs, stepKV, hcv, hsr]
      | ok u => simp [applyKVs, stepKV, hcv, hsr]

theorem applyKVs_append (conv : String → Except String Json) (t : Json)
    (X Y : List (String × String)) :
    applyKVs conv t (X ++ Y) =
      match applyKVs conv t X with
      | .error e => .error e
      | .ok u => applyKVs conv u Y := by
  induction X generalizing t with
  | nil => simp [applyKVs]
  | cons kv X' ih =>
      rw [List.cons_append, applyKVs_cons, applyKVs_cons]
      cases stepKV conv t kv with
      | error e => rfl
      | ok u => exact ih u

theorem setRaw_error_congr (t : Json) (p : String) (a b : Json) (e : String)
    (h : setRaw t p a = .error e) : setRaw t p b = .error e := by
  by_cases hp : p = ""
  · simp [setRaw, hp] at h ⊢
    exact h
  · simp only [setRaw, if_neg hp] at h ⊢
    exact setSegs_error_congr _ _ _ _ _ h

theorem setRaw_setRaw (t : Json) (p : String) (a b u : Json)
    (h : setRaw t p a = .ok u) : setRaw u p b = setRaw t p b := by
  by_cases hp : p = ""
  · simp [setRaw, hp] at h
  · simp only [setRaw, if_neg hp] at h ⊢
    exact setSegs_setSegs _ _ _ _ _ h

theorem stepKV_absorb (conv : String → Except String Json)
    (x y : String × String) (hk : x.1 = y.1)
    (hcx : ∃ w, conv x.2 = .ok w) (hcy : ∃ w, conv y.2 = .ok w) (t : Json) :
    (match stepKV conv t x with
     | .error e => .error e
     | .ok u => stepKV conv u y) = stepKV conv t y := by
  obtain ⟨wx, hwx⟩ := hcx
  obtain ⟨wy, hwy⟩ := hcy
  simp only [stepKV, hwx, hwy, hk]
  cases hsx : setRaw t (strDrop y.1 keyPrefix.length) wx with
  | error e =>
      simp only []
      rw [setRaw_error_congr t _ wx wy e hsx]
  | ok u =>
      simp only []
      rw [setRaw_setRaw t _ wx wy u hsx]

theorem applyKVs_ok_conv (conv : String → Except String Json)
    (c : List (String × String)) (t u : Json)
    (h : applyKVs conv t c = .ok u) :
    ∀ kv ∈ c, ∃ w, conv kv.2 = .ok w := by
  induction c generalizing t with
  | nil => intro kv hkv; cases hkv
  | cons x c' ih =>
      rw [applyKVs_cons] at h
      cases hst : stepKV conv t x with
      | error e => rw [hst] at h; cases h
      | ok u1 =>
          rw [hst] at h
          intro kv hkv
          rcases List.mem_cons.mp hkv with hkv | hkv
          · subst hkv
            simp only [stepKV] at hst
            cases hcv : conv kv.2 with
            | error c2 => rw [hcv] at hst; cases hst
            | ok w => exact ⟨w, rfl⟩
          · exact ih u1 h kv hkv

theorem applyKVs_samekey_last (conv : String → Except String Json)
    (c : List (String × String)) (k : String) (hne : c ≠ [])
    (hsk : ∀ kv ∈ c, kv.1 = k)
    (hcv : ∀ kv ∈ c, ∃ w, conv kv.2 = .ok w) (t : Json) :
    applyKVs conv t c = stepKV conv t (c.getLast hne) := by
  induction c generalizing t with
  | nil => cases hne rfl
  | cons x c' ih =>
      cases c' with
      | nil =>
          rw [applyKVs_cons]
          have hg : [x].getLast hne = x := rfl
          rw [hg]
          cases stepKV conv t x with
          | error e => rfl
          | ok u => rfl
      | cons y c'' =>
          rw [applyKVs_cons]
          have hne' : y :: c'' ≠ [] := by simp
          have hstep : ∀ u, applyKVs conv u (y :: c'') =
              stepKV conv u ((y :: c'').getLast hne') := by
            intro u
            exact ih hne' (fun kv hkv => hsk kv (List.mem_cons_of_mem x hkv))
              (fun kv hkv => hcv kv (List.mem_cons_of_mem x hkv)) u
          have hlast : (x :: y :: c'').getLast (by simp) = (y :: c'').getLast hne' :=
            List.getLast_cons hne'
          rw [hlast]
          have hkx : x.1 = ((y :: c'').getLast hne').1 := by
            rw [hsk x (List.mem_cons_self x _),
              hsk ((y :: c'').getLast hne') (List.mem_cons_of_mem x (List.getLast_mem hne'))]
          have habs := stepKV_absorb conv x ((y :: c'').getLast hne') hkx
            (hcv x (List.mem_cons_self x _))
            (hcv ((y :: c'').getLast hne') (List.mem_cons_of_mem x (List.getLast_mem hne')))
            t
          rw [← habs]
          cases stepKV conv t x with
          | error e => rfl
          | ok u => exact hstep u

theorem applyKVs_samekey_idem (conv : String → Except String Json)
    (c : List (String × String)) (k : String) (hsk : ∀ kv ∈ c, kv.1 = k)
    (t u : Json) (h : applyKVs conv t c = .ok u) :
    applyKVs conv u c = .ok u := by
  cases hc : c with
  | nil => simp [applyKVs]
  | cons x c' =>
      subst hc
      have hne : x :: c' ≠ [] := by simp
      have hcv := applyKVs_ok_conv conv _ t u h
      rw [applyKVs_samekey_last conv _ k hne hsk hcv] at h ⊢
      set z := (x :: c').getLast hne with hz
      simp only [stepKV] at h ⊢
      obtain ⟨w, hw⟩ := hcv z (List.getLast_mem hne)
      simp only [hw] at h ⊢
      cases hsr : setRaw t (strDrop z.1 keyPrefix.length) w with
      | error e => rw [hsr] at h; cases h
      | ok u1 =>
          rw [hsr] at h
          have hu : u1 = u := by
            cases h
            rfl
          subst hu
          rw [setRaw_setRaw t _ w w u1 hsr, hsr]

theorem applyKVs_samekey_twice (conv : String → Except String Json)
    (c : List (String × String)) (k : String) (hsk : ∀ kv ∈ c, kv.1 = k)
    (t : Json) : applyKVs conv t (c ++ c) = applyKVs conv t c := by
  rw [applyKVs_append]
  cases h : applyKVs conv t c with
  | error e => rfl
  | ok u => exact applyKVs_samekey_idem conv c k hsk t u h

theorem sorted_head_le (kv : String × String) (l : List (String × String))
    (hs : List.Sorted keyLe (kv :: l)) : ∀ y ∈ kv :: l, kv.1 ≤ y.1 := by
  intro y hy
  rcases List.mem_cons.mp hy with hy | hy
  · rw [hy]
  · exact (List.sorted_cons.mp hs).1 y hy

theorem head_class_extract (kv : String × String) (S₀ : List (String × String))
    (hs : List.Sorted keyLe (kv :: S₀)) :
    ∃ B, kv :: S₀ = filterKey kv.1 (kv :: S₀) ++ B ∧ filterKey kv.1 B = []
      ∧ List.Sorted keyLe B ∧ B.length < (kv :: S₀).length
      ∧ ∀ j, j ≠ kv.1 → filterKey j B = filterKey j (kv :: S₀) := by
  obtain ⟨B, hB1, hB2⟩ :=
    sorted_ge_extract kv.1 (kv :: S₀) hs (sorted_head_le kv S₀ hs)
  refine ⟨B, hB1, hB2, ?_, ?_, ?_⟩
  · have h2 : List.Sorted keyLe (filterKey kv.1 (kv :: S₀) ++ B) := hB1 ▸ hs
    exact (List.pairwise_append.mp h2).2.1
  · have hflt : filterKey kv.1 (kv :: S₀) = kv :: filterKey kv.1 S₀ := by
      rw [filterKey_cons, if_pos rfl]
    have hlen := congrArg List.length hB1
    rw [List.length_append, hflt] at hlen
    simp only [List.length_cons] at hlen ⊢
    omega
  · intro j hj
    have hfj := congrArg (filterKey j) hB1
    rw [filterKey_append, filterKey_filterKey_ne j kv.1 _ hj, List.nil_append] at hfj
    exact hfj.symm

/-- Folding the patch step over two sorted pair lists gives the same result
whenever, key by key, folding their key classes gives the same result. -/
theorem applyKVs_sorted_classes (conv : String → Except String Json) :
    ∀ (n : Nat) (S T : List (String × String)),
    S.length + T.length ≤ n → List.Sorted keyLe S → List.Sorted keyLe T →
    (∀ k t, applyKVs conv t (filterKey k S) = applyKVs conv t (filterKey k T)) →
    ∀ t, applyKVs conv t S = applyKVs conv t T := by
  intro n
  induction n with
  | zero =>
      intro S T hlen _ _ _ t
      have hS : S = [] := List.eq_nil_of_length_eq_zero (by omega)
      have hT : T = [] := List.eq_nil_of_length_eq_zero (by omega)
      rw [hS, hT]
  | succ n ih =>
      intro S T hlen hsS hsT hcls t
      cases S with
      | nil =>
          cases T with
          | nil => rfl
          | cons kvT T₀ =>
              obtain ⟨B, hB1, hB2, hBs, hBlen, hBf⟩ := head_class_extract kvT T₀ hsT
              have hCT : ∀ t', applyKVs conv t' (filterKey kvT.1 (kvT :: T₀)) = .ok t' := by
                intro t'
                have h2 := (hcls kvT.1 t').symm
                simpa [filterKey, applyKVs] using h2
              have hcrec : ∀ j t', applyKVs conv t' (filterKey j ([] : List (String × String)))
                  = applyKVs conv t' (filterKey j B) := by
                intro j t'
                by_cases hj : j = kvT.1
                · subst hj
                  rw [hB2, filterKey_nil]
                · rw [hBf j hj]
                  exact hcls j t'
              have hrec := ih [] B (by simp only [List.length_cons, List.length_nil] at hlen hBlen ⊢; omega)
                List.sorted_nil hBs hcrec t
              rw [hB1, applyKVs_append, hCT t]
              exact hrec
      | cons kvS S₀ =>
          cases T with
          | nil =>
              obtain ⟨B, hB1, hB2, hBs, hBlen, hBf⟩ := head_class_extract kvS S₀ hsS
              have hCS : ∀ t', applyKVs conv t' (filterKey kvS.1 (kvS :: S₀)) = .ok t' := by
                intro t'
                have h2 := hcls kvS.1 t'
                simpa [filterKey, applyKVs] using h2
              have hcrec : ∀ j t', applyKVs conv t' (filterKey j B)
                  = applyKVs conv t' (filterKey j ([] : List (String × String))) := by
                intro j t'
                by_cases hj : j = kvS.1
                · subst hj
                  rw [hB2, filterKey_nil]
                · rw [hBf j hj]
                  exact hcls j t'
              have hrec := ih B [] (by simp only [List.length_cons, List.length_nil] at hlen hBlen ⊢; omega)
                hBs List.sorted_nil hcrec t
              rw [hB1, applyKVs_append, hCS t]
              exact hrec
          | cons kvT T₀ =>
              rcases lt_trichotomy kvS.1 kvT.1 with hlt | heq | hgt
              · have hTnil : filterKey kvS.1 (kvT :: T₀) = [] := by
                  rw [filterKey_eq_nil_iff]
                  intro y hy
                  have h2 := sorted_head_le kvT T₀ hsT y hy
                  exact fun hh => absurd (hh ▸ h2) (not_le_of_lt hlt)
                obtain ⟨B, hB1, hB2, hBs, hBlen, hBf⟩ := head_class_extract kvS S₀ hsS
                have hCS : ∀ t', applyKVs conv t' (filterKey kvS.1 (kvS :: S₀)) = .ok t' := by
                  intro t'
                  have h2 := hcls kvS.1 t'
                  rw [hTnil] at h2
                  simpa [applyKVs] using h2
                have hcrec : ∀ j t', applyKVs conv t' (filterKey j B)
                    = applyKVs conv t' (filterKey j (kvT :: T₀)) := by
                  intro j t'
                  by_cases hj : j = kvS.1
                  · subst hj
                    rw [hB2, hTnil]
                  · rw [hBf j hj]
                    exact hcls j t'
                have hrec := ih B (kvT :: T₀)
                  (by simp only [List.length_cons] at hlen hBlen ⊢; omega)
                  hBs hsT hcrec t
                rw [hB1, applyKVs_append, hCS t]
                exact hrec
              · obtain ⟨BS, hS1, hS2, hSs, hSlen, hSf⟩ := head_class_extract kvS S₀ hsS
                obtain ⟨BT, hT1, hT2, hTs, hTlen, hTf⟩ := head_class_extract kvT T₀ hsT
                have hceq : applyKVs conv t (filterKey kvS.1 (kvS :: S₀)) =
                    applyKVs conv t (filterKey kvT.1 (kvT :: T₀)) := by
                  have h2 := hcls kvS.1 t
                  rw [heq] at h2
                  rw [← heq] at h2 ⊢
                  exact h2
                have hcrec : ∀ j t', applyKVs conv t' (filterKey j BS)
                    = applyKVs conv t' (filterKey j BT) := by
                  intro j t'
                  by_cases hj : j = kvS.1
                  · subst hj
                    rw [hS2, show filterKey kvS.1 BT = [] from heq ▸ hT2]
                  · rw [hSf j hj, hTf j (heq ▸ hj)]
                    exact hcls j t'
                rw [hS1, hT1, applyKVs_append, applyKVs_append, hceq]
                cases happ : applyKVs conv t (filterKey kvT.1 (kvT :: T₀)) with
                | error e => rfl
                | ok u =>
                    exact ih BS BT
                      (by simp only [List.length_cons] at hlen hSlen hTlen ⊢; omega)
                      hSs hTs hcrec u
              · have hSnil : filterKey kvT.1 (kvS :: S₀) = [] := by
                  rw [filterKey_eq_nil_iff]
                  intro y hy
                  have h2 := sorted_head_le kvS S₀ hsS y hy
                  exact fun hh => absurd (hh ▸ h2) (not_le_of_lt hgt)
                obtain ⟨B, hB1, hB2, hBs, hBlen, hBf⟩ := head_class_extract kvT T₀ hsT
                have hCT : ∀ t', applyKVs conv t' (filterKey kvT.1 (kvT :: T₀)) = .ok t' := by
                  intro t'
                  have h2 := (hcls kvT.1 t').symm
                  rw [hSnil] at h2
                  simpa [applyKVs] using h2
                have hcrec : ∀ j t', applyKVs conv t' (filterKey j (kvS :: S₀))
                    = applyKVs conv t' (filterKey j B) := by
                  intro j t'
                  by_cases hj : j = kvT.1
                  · subst hj
                    rw [hB2, hSnil]
                  · rw [hBf j hj]
                    exact hcls j t'
                have hrec := ih (kvS :: S₀) B
                  (by simp only [List.length_cons] at hlen hBlen ⊢; omega)
                  hsS hBs hcrec t
                rw [hB1, applyKVs_append, hCT t]
                exact hrec

/-! ## Supporting lemmas for the order-sensitivity and idempotence claims -/

theorem extractKVs_append (e1 e2 : List String) :
    extractKVs (e1 ++ e2) = extractKVs e1 ++ extractKVs e2 := by
  simp [extractKVs]

theorem sorted_sortByKey (l : List (String × String)) :
    List.Sorted keyLe (sortByKey l) :=
  List.sorted_insertionSort keyLe l

theorem mem_sortByKey (kv : String × String) (l : List (String × String)) :
    kv ∈ sortByKey l ↔ kv ∈ l :=
  (List.perm_insertionSort keyLe l).mem_iff

theorem addrPrefix_refl (l : List String) : addrPrefix l l = true := by
  induction l with
  | nil => rfl
  | cons a l' ih => simp [addrPrefix, segAlias, ih]

theorem sortByKey_swap (A B : List (String × String)) (p q : String × String)
    (hne : p.1 ≠ q.1) :
    sortByKey (A ++ p :: q :: B) = sortByKey (A ++ q :: p :: B) := by
  induction A with
  | nil =>
      simp only [List.nil_append, sortByKey, List.insertionSort]
      exact orderedInsert_comm p q (List.insertionSort keyLe B) hne
  | cons a A' ih =>
      simp only [List.cons_append, sortByKey, List.insertionSort]
      exact congrArg (List.orderedInsert keyLe a) ih

theorem applyKVs_get_frame (conv : String → Except String Json)
    (B : List (String × String)) (t u w : Json) (p : String)
    (hget : getSegs (splitDots p) t = some w)
    (hdisj : ∀ kv ∈ B,
      addrPrefix (splitDots p) (splitDots (strDrop kv.1 keyPrefix.length)) = false ∧
      addrPrefix (splitDots (strDrop kv.1 keyPrefix.length)) (splitDots p) = false)
    (hok : applyKVs conv t B = .ok u) :
    getSegs (splitDots p) u = some w := by
  induction B generalizing t with
  | nil =>
      simp [applyKVs] at hok
      subst hok
      exact hget
  | cons kv B' ih =>
      rw [applyKVs_cons] at hok
      cases hst : stepKV conv t kv with
      | error e => rw [hst] at hok; cases hok
      | ok t1 =>
          rw [hst] at hok
          simp only [stepKV] at hst
          cases hcv : conv kv.2 with
          | error c => rw [hcv] at hst; cases hst
          | ok data =>
              simp only [hcv] at hst
              cases hsr : setRaw t (strDrop kv.1 keyPrefix.length) data with
              | error c => rw [hsr] at hst; cases hst
              | ok t1' =>
                  rw [hsr] at hst
                  have ht1 : t1' = t1 := by cases hst; rfl
                  subst ht1
                  by_cases hp0 : strDrop kv.1 keyPrefix.length = ""
                  · rw [hp0] at hsr
                    simp [setRaw] at hsr
                  · simp only [setRaw, if_neg hp0] at hsr
                    have hget1 := getSegs_setSegs_frame
                      (splitDots (strDrop kv.1 keyPrefix.length)) (splitDots p)
                      t data t1' w hsr hget
                      (hdisj kv (List.mem_cons_self kv B')).1
                      (hdisj kv (List.mem_cons_self kv B')).2
                    exact ih t1' hget1
                      (fun kv' hkv' => hdisj kv' (List.mem_cons_of_mem kv hkv')) hok

/-! ## Shape of the serialized output: newlines appear only where the
indenting serializer puts them -/

theorem digitChar_ne_nl (d : Nat) : digitChar d ≠ '\n' := by
  unfold digitChar
  split_ifs <;> decide

theorem hexDigitChar_ne_nl (d : Nat) : hexDigitChar d ≠ '\n' := by
  unfold hexDigitChar
  split_ifs with h1
  · exact digitChar_ne_nl d
  all_goals decide

theorem natChars_no_nl (n : Nat) : '\n' ∉ natChars n := by
  induction n using Nat.strong_induction_on with
  | _ n ih =>
      rw [natChars_eq]
      by_cases h : n < 10
      · rw [if_pos h]
        intro hmem
        rcases List.mem_singleton.mp hmem with hh
        exact digitChar_ne_nl n hh.symm
      · rw [if_neg h]
        intro hmem
        rcases List.mem_append.mp hmem with hh | hh
        · exact ih (n / 10)
            (Nat.div_lt_self (Nat.lt_of_lt_of_le (by norm_num) (Nat.le_of_not_lt h))
              (by norm_num)) hh
        · exact digitChar_ne_nl (n % 10) (List.mem_singleton.mp hh).symm

theorem natChars_ne_nil (n : Nat) : natChars n ≠ [] := by
  rw [natChars_eq]
  by_cases h : n < 10
  · rw [if_pos h]
    simp
  · rw [if_neg h]
    simp

theorem intChars_no_nl (n : Int) : '\n' ∉ intChars n := by
  unfold intChars
  split_ifs
  · intro hmem
    rcases List.mem_cons.mp hmem with hh | hh
    · cases hh
    · exact natChars_no_nl _ hh
  · exact natChars_no_nl _

theorem escapeChar_no_nl (c : Char) : '\n' ∉ escapeChar c := by
  unfold escapeChar
  split_ifs with h1 h2 h3 h4 h5 h6 h7 h8 h9
  · decide
  · decide
  · decide
  · decide
  · decide
  · decide
  · decide
  · decide
  · intro hmem
    simp only [List.mem_append, List.mem_cons] at hmem
    rcases hmem with hh | hh | hh | hh
    · revert hh
      decide
    · exact hexDigitChar_ne_nl _ hh.symm
    · exact hexDigitChar_ne_nl _ hh.symm
    · cases hh
  · intro hmem
    rcases List.mem_singleton.mp hmem with rfl
    revert h9
    decide

theorem foldr_escape_no_nl (cs : List Char) :
    '\n' ∉ cs.foldr (fun c acc => escapeChar c ++ acc) [] := by
  induction cs with
  | nil => simp
  | cons c cs ih =>
      simp only [List.foldr_cons, List.mem_append]
      rintro (hh | hh)
      · exact escapeChar_no_nl c hh
      · exact ih hh

theorem strChars_no_nl (s : String) : '\n' ∉ strChars s := by
  unfold strChars
  simp only [List.mem_cons, List.mem_append, List.mem_singleton]
  rintro ((hh | hh) | (hh | hh))
  · cases hh
  · exact foldr_escape_no_nl s.data hh
  · cases hh
  · cases hh

theorem no_nl_cons {c : Char} {l : List Char} (h1 : c ≠ '\n') (h2 : '\n' ∉ l) :
    '\n' ∉ c :: l := by
  intro hm
  rcases List.mem_cons.mp hm with hh | hh
  · exact h1 hh.symm
  · exact h2 hh

theorem no_nl_append {l1 l2 : List Char} (h1 : '\n' ∉ l1) (h2 : '\n' ∉ l2) :
    '\n' ∉ l1 ++ l2 := by
  intro hm
  rcases List.mem_append.mp hm with hh | hh
  · exact h1 hh
  · exact h2 hh

mutual

theorem compactChars_no_nl : ∀ (t : Json), '\n' ∉ compactChars t
  | Json.null => by simp [compactChars]
  | Json.bool true => by simp [compactChars]
  | Json.bool false => by simp [compactChars]
  | Json.num n => intChars_no_nl n
  | Json.str s => strChars_no_nl s
  | Json.arr xs =>
      no_nl_cons (by decide) (no_nl_append (compactArr_no_nl xs) (by decide))
  | Json.obj fs =>
      no_nl_cons (by decide) (no_nl_append (compactObj_no_nl fs) (by decide))

theorem compactArr_no_nl : ∀ (xs : List Json), '\n' ∉ compactArr xs
  | [] => by simp [compactArr]
  | [x] => compactChars_no_nl x
  | x :: y :: xs =>
      no_nl_append (compactChars_no_nl x)
        (no_nl_cons (by decide) (compactArr_no_nl (y :: xs)))

theorem compactObj_no_nl : ∀ (fs : List (String × Json)), '\n' ∉ compactObj fs
  | [] => by simp [compactObj]
  | [kv] => by
      simp only [compactObj]
      exact no_nl_append (strChars_no_nl kv.1)
        (no_nl_cons (by decide) (compactChars_no_nl kv.2))
  | kv :: kv2 :: fs => by
      simp only [compactObj]
      exact no_nl_append
        (no_nl_append (strChars_no_nl kv.1)
          (no_nl_cons (by decide) (compactChars_no_nl kv.2)))
        (no_nl_cons (by decide) (compactObj_no_nl (kv2 :: fs)))

end

theorem mem_of_getLast?_eq {l : List Char} {c : Char} (h : l.getLast? = some c) :
    c ∈ l := by
  induction l with
  | nil => cases h
  | cons a l' ih =>
      cases l' with
      | nil =>
          simp [List.getLast?] at h
          simp [h]
      | cons b l'' =>
          rw [List.getLast?_cons_cons] at h
          exact List.mem_cons_of_mem a (ih h)

theorem natChars_getLast (n : Nat) :
    ∃ c, (natChars n).getLast? = some c ∧ c ≠ '\n' := by
  rw [natChars_eq]
  by_cases h : n < 10
  · rw [if_pos h]
    exact ⟨digitChar n, rfl, digitChar_ne_nl n⟩
  · rw [if_neg h]
    exact ⟨digitChar (n % 10), List.getLast?_concat _, digitChar_ne_nl (n % 10)⟩

theorem intChars_getLast (n : Int) :
    ∃ c, (intChars n).getLast? = some c ∧ c ≠ '\n' := by
  obtain ⟨c, hc, hcn⟩ := natChars_getLast n.natAbs
  unfold intChars
  split_ifs
  · rcases List.eq_nil_or_concat (natChars n.natAbs) with h | ⟨l', x, h⟩
    · exact absurd h (natChars_ne_nil _)
    · rw [List.concat_eq_append] at h
      refine ⟨c, ?_, hcn⟩
      rw [h, List.getLast?_concat] at hc
      rw [h, show ('-' :: (l' ++ [x])) = ('-' :: l') ++ [x] by simp,
        List.getLast?_concat]
      exact hc
  · exact ⟨c, hc, hcn⟩

theorem strChars_getLast (s : String) : (strChars s).getLast? = some '"' := by
  unfold strChars
  exact List.getLast?_concat _

theorem indentChars_getLast (pre ind : String) (d : Nat) (t : Json) :
    ∃ c, (indentChars pre ind d t).getLast? = some c ∧ c ≠ '\n' := by
  cases t with
  | null => exact ⟨'l', rfl, by decide⟩
  | bool b => cases b with
      | true => exact ⟨'e', rfl, by decide⟩
      | false => exact ⟨'e', rfl, by decide⟩
  | num n =>
      simp only [indentChars, compactChars]
      exact intChars_getLast n
  | str s =>
      simp only [indentChars, compactChars]
      exact ⟨'"', strChars_getLast s, by decide⟩
  | arr xs =>
      cases xs with
      | nil => exact ⟨']', rfl, by decide⟩
      | cons x xs' =>
          simp only [indentChars]
          exact ⟨']', List.getLast?_concat _, by decide⟩
  | obj fs =>
      cases fs with
      | nil => exact ⟨'}', rfl, by decide⟩
      | cons kv fs' =>
          simp only [indentChars]
          exact ⟨'}', List.getLast?_concat _, by decide⟩

/-! ## Concrete fixtures used by the claim witnesses -/

/-- A concrete converter covering the YAML texts of the test scenarios
(file contents are stood in for by the tags fileA/fileG). -/
def convEx : String → Except String Json := fun s =>
  if s = "fileA" then
    .ok (Json.obj [("hello", Json.str "world"),
      ("numbers", Json.arr [Json.num 1, Json.num 2, Json.num 3])])
  else if s = "fileG" then
    .ok (Json.obj [("author", Json.str "roy"), ("version", Json.num 1)])
  else if s = "\"hi\"" then .ok (Json.str "hi")
  else if s = "-2" then .ok (Json.num (-2))
  else if s = "22" then .ok (Json.num 22)
  else if s = "\x7b\"x\": 1, \"y\": 2, \"z\": 3\x7d" then
    .ok (Json.obj [("x", Json.num 1), ("y", Json.num 2), ("z", Json.num 3)])
  else if s = "1" then .ok (Json.num 1)
  else .error "yaml: found unexpected end of stream"

/-- A decode target accepting any tree (Go: unmarshalling into
`*json.RawMessage`). -/
def decJson : Decoder Json where
  typeName := "*json.RawMessage"
  decode := fun j => .ok j

/-- A decode target requiring a string (Go: unmarshalling into `*string`). -/
def decStr : Decoder String where
  typeName := "*string"
  decode := fun j =>
    match j with
    | Json.str s => .ok s
    | _ => .error "json: cannot unmarshal value into Go value of type string"

/-- The directory listing of the dump scenario of `TestLoadConfigSet`:
`/my_etc` holds `aaa.yaml` (fields `hello: world`, `numbers: [1,2,3]`) and
`gogo.yaml` (fields `version: 1.0`, `author: roy`); the file texts are stood
in for by the tags `fileA`/`fileG`, which `convEx` converts to exactly those
fields. -/
def listingC1 : Except String (List (String × Except String String)) :=
  .ok [("/my_etc/aaa.yaml", .ok "fileA"), ("/my_etc/gogo.yaml", .ok "fileG")]

/-- The environment of the same scenario: the four overrides in the order
the test lists them, after an unrelated entry. -/
def envC1 : List String :=
  ["FOO=BAR",
   "CONFIGSET.aaa.hello=\"hi\"",
   "CONFIGSET.aaa.numbers.1=-2",
   "CONFIGSET.gogo.version.y=22",
   "CONFIGSET.gogo.version=\x7b\"x\": 1, \"y\": 2, \"z\": 3\x7d"]

/-- The tree the scenario is expected to store. -/
def treeC1 : Json :=
  Json.obj
    [("aaa", Json.obj
        [("hello", Json.str "hi"),
         ("numbers", Json.arr [Json.num 1, Json.num (-2), Json.num 3])]),
     ("gogo", Json.obj
        [("author", Json.str "roy"),
         ("version", Json.obj
            [("x", Json.num 1), ("y", Json.num 22), ("z", Json.num 3)])])]

/-! ## The claims -/

/-- C3: Load is atomic with respect to the stored state — for every prior
state, directory path, listing outcome, environment and converter, if Load
reports an error (from the listing, a file read, a file conversion, an
override conversion or the patch write), the previously stored tree of the
config set is left completely unchanged. -/
theorem claim_C3 (cs : ConfigSet) (dirPath : String)
    (listing : Except String (List (String × Except String String)))
    (env : List String) (conv : String → Except String Json) (e : LoadError)
    (h : (cs.Load dirPath listing env conv).2 = some e) :
    (cs.Load dirPath listing env conv).1 = cs := by
  unfold ConfigSet.Load at h ⊢
  cases hga : gatherConfigs (dirPath ++ "/*.yaml") listing conv with
  | error e2 => rfl
  | ok raw =>
      simp only [hga] at h ⊢
      cases hov : overwriteConfigSet raw env conv with
      | error e2 => rfl
      | ok raw' =>
          simp only [hov] at h
          cases h

/-- Witness for C3: a failed load (failing directory listing) over a
previously loaded config set leaves the stored tree unchanged. -/
theorem claim_C3_witness :
    ((ConfigSet.mk (some (Json.num 5))).Load "/my_etc" (.error "permission denied")
      [] convEx).2 = some (LoadError.findFiles "/my_etc/*.yaml" "permission denied") ∧
    ((ConfigSet.mk (some (Json.num 5))).Load "/my_etc" (.error "permission denied")
      [] convEx).1 = ConfigSet.mk (some (Json.num 5)) :=
  ⟨rfl, claim_C3 (ConfigSet.mk (some (Json.num 5))) "/my_etc" (.error "permission denied")
    [] convEx (LoadError.findFiles "/my_etc/*.yaml" "permission denied") rfl⟩

/-- C9: for every directory listing with zero matching files and an
environment carrying no overrides, Load succeeds storing the empty object,
and the compact dump (empty prefix and indent) is exactly the two-character
text of the empty object — never an error and never null. -/
theorem claim_C9 (cs : ConfigSet) (dirPath : String)
    (conv : String → Except String Json) (env : List String)
    (henv : extractKVs env = []) :
    cs.Load dirPath (.ok []) env conv = (ConfigSet.mk (some (Json.obj [])), none) ∧
    (ConfigSet.mk (some (Json.obj []))).Dump "" "" = "\x7b\x7d" := by
  constructor
  · unfold ConfigSet.Load
    have hga : gatherConfigs (dirPath ++ "/*.yaml") (.ok []) conv = .ok (Json.obj []) := rfl
    have hov : overwriteConfigSet (Json.obj []) env conv = .ok (Json.obj []) := by
      unfold overwriteConfigSet
      rw [henv]
      rfl
    simp only [hga, hov]
  · rfl

/-- Witness for C9: an existing empty directory and an environment with no
CONFIGSET-prefixed entries. -/
theorem claim_C9_witness :
    extractKVs ["FOO=BAR"] = [] ∧
    ((ConfigSet.mk none).Load "/my_etc" (.ok []) ["FOO=BAR"] convEx
      = (ConfigSet.mk (some (Json.obj [])), none) ∧
    (ConfigSet.mk (some (Json.obj []))).Dump "" "" = "\x7b\x7d") :=
  ⟨rfl, claim_C9 (ConfigSet.mk none) "/my_etc" convEx ["FOO=BAR"] rfl⟩

/-- C4: an environment entry that is exactly the namespace prefix followed
by `=` and a value is retained by the extractor with an empty path (the
extractor never validates path shape); Load then fails with the path error
stating the path cannot be empty, and the stored state does not change. -/
theorem claim_C4 (cs : ConfigSet) (dirPath : String)
    (listing : Except String (List (String × Except String String)))
    (conv : String → Except String Json) (g w : Json)
    (hga : gatherConfigs (dirPath ++ "/*.yaml") listing conv = .ok g)
    (hc : conv "1" = .ok w) :
    extractKVs ["CONFIGSET.=1"] = [("CONFIGSET.", "1")] ∧
    (cs.Load dirPath listing ["CONFIGSET.=1"] conv).2 =
      some (LoadError.setValue "" "path cannot be empty") ∧
    (cs.Load dirPath listing ["CONFIGSET.=1"] conv).1 = cs := by
  have hext : extractKVs ["CONFIGSET.=1"] = [("CONFIGSET.", "1")] := by rfl
  have hov : overwriteConfigSet g ["CONFIGSET.=1"] conv =
      .error (LoadError.setValue "" "path cannot be empty") := by
    unfold overwriteConfigSet
    rw [hext]
    show applyKVs conv g [("CONFIGSET.", "1")] =
      .error (LoadError.setValue "" "path cannot be empty")
    simp only [applyKVs, hc]
    rfl
  refine ⟨hext, ?_, ?_⟩
  · unfold ConfigSet.Load
    simp only [hga, hov]
  · unfold ConfigSet.Load
    simp only [hga, hov]

/-- Witness for C4: the empty-path override entry over an empty directory
and a previously loaded config set. -/
theorem claim_C4_witness :
    gatherConfigs ("/my_etc" ++ "/*.yaml") (.ok []) convEx = .ok (Json.obj []) ∧
    convEx "1" = .ok (Json.num 1) ∧
    (extractKVs ["CONFIGSET.=1"] = [("CONFIGSET.", "1")] ∧
    ((ConfigSet.mk (some (Json.num 7))).Load "/my_etc" (.ok [])
      ["CONFIGSET.=1"] convEx).2 =
        some (LoadError.setValue "" "path cannot be empty") ∧
    ((ConfigSet.mk (some (Json.num 7))).Load "/my_etc" (.ok [])
      ["CONFIGSET.=1"] convEx).1 = ConfigSet.mk (some (Json.num 7))) :=
  ⟨rfl, rfl, claim_C4 (ConfigSet.mk (some (Json.num 7))) "/my_etc" (.ok []) convEx
    (Json.obj []) (Json.num 1) rfl rfl⟩

/-- C5: ReadValue reports the ErrValueNotFound sentinel (carrying the
path) exactly when the path addresses nothing in the stored tree; when the
path addresses a value whose shape the target cannot decode, ReadValue
instead fails with the unmarshal error naming the path and the target type
and wrapping the decoder's diagnostic. -/
theorem claim_C5 {α : Type} (t : Json) (path : String) (d : Decoder α) :
    ((∃ e, readValueTree t path d = .error e ∧ e = ReadError.valueNotFound path) ↔
      jsonGet t path = none) ∧
    (∀ v cause, jsonGet t path = some v → d.decode v = .error cause →
      readValueTree t path d = .error (.unmarshal path d.typeName cause)) := by
  constructor
  · cases h : jsonGet t path with
    | none =>
        simp only [readValueTree, h]
        exact ⟨fun _ => trivial, fun _ => ⟨.valueNotFound path, rfl, rfl⟩⟩
    | some v =>
        simp only [readValueTree, h]
        constructor
        · rintro ⟨e, he, rfl⟩
          cases hd : d.decode v with
          | error cause => rw [hd] at he; cases he
          | ok a => rw [hd] at he; cases he
        · intro hcontra
          cases hcontra
  · intro v cause hv hd
    simp only [readValueTree, hv, hd]

/-- Witness for C5: a missing path reports the sentinel; a string target
over a numeric value reports the unmarshal error. -/
theorem claim_C5_witness :
    (∃ e, readValueTree (Json.obj [("aaa", Json.num 1)]) "missing.path" decJson
        = .error e ∧ e = ReadError.valueNotFound "missing.path") ∧
    readValueTree (Json.obj [("aaa", Json.num 1)]) "aaa" decStr =
      .error (.unmarshal "aaa" "*string"
        "json: cannot unmarshal value into Go value of type string") :=
  ⟨(claim_C5 (Json.obj [("aaa", Json.num 1)]) "missing.path" decJson).1.mpr rfl,
   (claim_C5 (Json.obj [("aaa", Json.num 1)]) "aaa" decStr).2
     (Json.num 1) "json: cannot unmarshal value into Go value of type string" rfl rfl⟩

/-- C1: loading the directory with `aaa.yaml` (`hello: world`,
`numbers: [1,2,3]`) and `gogo.yaml` (`version: 1.0`, `author: roy`) under
the four overrides `aaa.hello="hi"`, `aaa.numbers.1=-2`,
`gogo.version.y=22`, `gogo.version={"x":1,"y":2,"z":3}` listed in exactly
that order succeeds, and the compact dump of the stored tree is exactly the
expected text — in particular the earlier-listed deep override `y=22`
survives the later-listed whole-object write. -/
theorem claim_C1 :
    (ConfigSet.mk none).Load "/my_etc" listingC1 envC1 convEx =
      (ConfigSet.mk (some treeC1), none) ∧
    (ConfigSet.mk (some treeC1)).Dump "" "" =
      "\x7b\"aaa\":\x7b\"hello\":\"hi\",\"numbers\":[1,-2,3]\x7d,\"gogo\":\x7b\"author\":\"roy\",\"version\":\x7b\"x\":1,\"y\":22,\"z\":3\x7d\x7d\x7d" :=
  ⟨rfl, rfl⟩

/-- C6 (counterexample): the spec says the empty path denotes the whole
document for reads, but on a loaded config set `ReadValue` with path `""`
does not return the stored tree — gjson looks the empty path up as the
single field name `""`, finds nothing, and reports `ErrValueNotFound`. -/
theorem claim_C6_counterexample :
    (ConfigSet.mk (some (Json.obj [("aaa", Json.num 1)]))).ReadValue "" decJson
      = .error (.valueNotFound "") := rfl

/-- C6 (amended): for every loaded object with no field literally named
`""` and every read target, `ReadValue` at the empty path fails with
`ErrValueNotFound ""` — the empty path is invalid for reads as well as for
writes, addressing only a field named `""`, never the whole document. -/
theorem claim_C6 {α : Type} (fs : List (String × Json)) (d : Decoder α)
    (h : fs.lookup "" = none) :
    (ConfigSet.mk (some (Json.obj fs))).ReadValue "" d =
      .error (.valueNotFound "") := by
  show readValueTree (Json.obj fs) "" d = _
  have hg : jsonGet (Json.obj fs) "" = none := by
    show getSegs (splitDots "") (Json.obj fs) = none
    rw [show splitDots "" = [""] from rfl]
    simp [getSegs, h]
  simp [readValueTree, hg]

/-- Witness for C6: a loaded one-field object. -/
theorem claim_C6_witness :
    ([("aaa", Json.num 1)] : List (String × Json)).lookup "" = none ∧
    (ConfigSet.mk (some (Json.obj [("aaa", Json.num 1)]))).ReadValue "" decStr =
      .error (.valueNotFound "") :=
  ⟨rfl, claim_C6 [("aaa", Json.num 1)] decStr rfl⟩

/-- C7: on every loaded config set, `Dump` with empty prefix and indent is
the compact serialization, which contains no newline at all; `Dump` with
any non-empty prefix or indent is the indented serialization terminated by
exactly one trailing newline (the text before it does not end in a
newline). -/
theorem claim_C7 (t : Json) (pre ind : String)
    (h : pre.length + ind.length ≠ 0) :
    (ConfigSet.mk (some t)).Dump "" "" = t.compact ∧
    '\n' ∉ ((ConfigSet.mk (some t)).Dump "" "").data ∧
    ((ConfigSet.mk (some t)).Dump pre ind).data = indentChars pre ind 0 t ++ ['\n'] ∧
    (indentChars pre ind 0 t).getLast? ≠ some '\n' := by
  refine ⟨rfl, ?_, ?_, ?_⟩
  · show '\n' ∉ compactChars t
    exact compactChars_no_nl t
  · show (dumpTree t pre ind).data = _
    rw [dumpTree, if_neg h]
  · obtain ⟨c, hc, hcn⟩ := indentChars_getLast pre ind 0 t
    rw [hc]
    intro heq
    exact hcn (Option.some.inj heq)

/-- Witness for C7: a small loaded object dumped with a two-space indent. -/
theorem claim_C7_witness :
    ("" : String).length + ("  " : String).length ≠ 0 ∧
    ((ConfigSet.mk (some (Json.obj [("a", Json.num 1)]))).Dump "" "" =
        (Json.obj [("a", Json.num 1)]).compact ∧
      '\n' ∉ ((ConfigSet.mk (some (Json.obj [("a", Json.num 1)]))).Dump "" "").data ∧
      ((ConfigSet.mk (some (Json.obj [("a", Json.num 1)]))).Dump "" "  ").data =
        indentChars "" "  " 0 (Json.obj [("a", Json.num 1)]) ++ ['\n'] ∧
      (indentChars "" "  " 0 (Json.obj [("a", Json.num 1)])).getLast? ≠ some '\n') :=
  ⟨by decide, claim_C7 (Json.obj [("a", Json.num 1)]) "" "  " (by decide)⟩

/-- C8: applying an override sequence twice in succession — the pair list
concatenated with itself, and likewise a whole environment repeated — gives
the same outcome as applying it once, over every initial tree and every
converter (failures included: both passes stop at the same error). -/
theorem claim_C8 (conv : String → Except String Json) (t : Json) :
    (∀ kvs : List (String × String),
      applyKVs conv t (sortByKey (kvs ++ kvs)) = applyKVs conv t (sortByKey kvs)) ∧
    (∀ env : List String,
      overwriteConfigSet t (env ++ env) conv = overwriteConfigSet t env conv) := by
  have hmain : ∀ kvs : List (String × String),
      applyKVs conv t (sortByKey (kvs ++ kvs)) = applyKVs conv t (sortByKey kvs) := by
    intro kvs
    refine applyKVs_sorted_classes conv
      ((sortByKey (kvs ++ kvs)).length + (sortByKey kvs).length)
      (sortByKey (kvs ++ kvs)) (sortByKey kvs) le_rfl
      (sorted_sortByKey _) (sorted_sortByKey _) ?_ t
    intro k t'
    rw [filterKey_sortByKey, filterKey_sortByKey, filterKey_append]
    exact applyKVs_samekey_twice conv (filterKey k kvs) k
      (fun kv hkv => key_of_mem_filterKey hkv) t'
  refine ⟨hmain, ?_⟩
  intro env
  show applyKVs conv t (sortByKey (extractKVs (env ++ env))) =
    applyKVs conv t (sortByKey (extractKVs env))
  rw [extractKVs_append]
  exact hmain (extractKVs env)

/-- C2: the override application respects the spec's two order laws.
(i) Later wins on the same path: when the pair sequence carries two pairs
with the same key — hence the same path — and every other pair addresses a
disjoint path, a successful application leaves the later pair's converted
value at that path, however many unrelated pairs are interleaved between
the two.  (ii) Disjoint swap: exchanging two adjacent pairs whose paths
are unrelated never changes the outcome of the application. -/
theorem claim_C2 (conv : String → Except String Json) :
    (∀ (A B C : List (String × String)) (k v₁ v₂ : String) (w₂ t u : Json),
      (∀ kv ∈ A ++ B ++ C, kv.1 ≠ k) →
      (∀ kv ∈ A ++ B ++ C,
        addrPrefix (splitDots (strDrop k keyPrefix.length))
          (splitDots (strDrop kv.1 keyPrefix.length)) = false ∧
        addrPrefix (splitDots (strDrop kv.1 keyPrefix.length))
          (splitDots (strDrop k keyPrefix.length)) = false) →
      conv v₂ = .ok w₂ →
      applyKVs conv t (sortByKey (A ++ [(k, v₁)] ++ B ++ [(k, v₂)] ++ C)) = .ok u →
      jsonGet u (strDrop k keyPrefix.length) = some w₂) ∧
    (∀ (X Y : List (String × String)) (p q : String × String) (t : Json),
      addrPrefix (splitDots (strDrop p.1 keyPrefix.length))
        (splitDots (strDrop q.1 keyPrefix.length)) = false →
      applyKVs conv t (sortByKey (X ++ p :: q :: Y)) =
        applyKVs conv t (sortByKey (X ++ q :: p :: Y))) := by
  constructor
  · intro A B C k v₁ v₂ w₂ t u hk hdisj hc2 hok
    have hA0 : filterKey k A = [] := (filterKey_eq_nil_iff _ _).mpr
      (fun y hy => hk y (by simp [hy]))
    have hB0 : filterKey k B = [] := (filterKey_eq_nil_iff _ _).mpr
      (fun y hy => hk y (by simp [hy]))
    have hC0 : filterKey k C = [] := (filterKey_eq_nil_iff _ _).mpr
      (fun y hy => hk y (by simp [hy]))
    have hclassseq : filterKey k (A ++ [(k, v₁)] ++ B ++ [(k, v₂)] ++ C)
        = [(k, v₁), (k, v₂)] := by
      simp only [filterKey_append, hA0, hB0, hC0]
      rw [show filterKey k [(k, v₁)] = [(k, v₁)] from by
            rw [filterKey_cons, if_pos rfl, filterKey_nil],
          show filterKey k [(k, v₂)] = [(k, v₂)] from by
            rw [filterKey_cons, if_pos rfl, filterKey_nil]]
      simp
    obtain ⟨A', B', hdec, hA', hB'⟩ :=
      sorted_class_extract k (sortByKey (A ++ [(k, v₁)] ++ B ++ [(k, v₂)] ++ C))
        (sorted_sortByKey _)
    rw [filterKey_sortByKey, hclassseq] at hdec
    rw [hdec, applyKVs_append] at hok
    cases h1 : applyKVs conv t (A' ++ [(k, v₁), (k, v₂)]) with
    | error e => simp only [h1] at hok; cases hok
    | ok t2 =>
        simp only [h1] at hok
        rw [applyKVs_append] at h1
        cases h2 : applyKVs conv t A' with
        | error e => simp only [h2] at h1; cases h1
        | ok t1 =>
            simp only [h2] at h1
            rw [applyKVs_cons] at h1
            cases h3 : stepKV conv t1 (k, v₁) with
            | error e => simp only [h3] at h1; cases h1
            | ok m1 =>
                simp only [h3] at h1
                rw [applyKVs_cons] at h1
                cases h4 : stepKV conv m1 (k, v₂) with
                | error e => simp only [h4] at h1; cases h1
                | ok m2 =>
                    simp only [h4] at h1
                    have hm2 : m2 = t2 := by
                      simp [applyKVs] at h1
                      exact h1
                    subst hm2
                    simp only [stepKV, hc2] at h4
                    cases h5 : setRaw m1 (strDrop k keyPrefix.length) w₂ with
                    | error e => simp only [h5] at h4; cases h4
                    | ok m2' =>
                        simp only [h5] at h4
                        have hm2' : m2' = m2 := by cases h4; rfl
                        subst hm2'
                        by_cases hp : strDrop k keyPrefix.length = ""
                        · rw [hp] at h5
                          simp [setRaw] at h5
                        · simp only [setRaw, if_neg hp] at h5
                          have hget2 := getSegs_setSegs _ m1 w₂ m2' h5
                          have hdisjB : ∀ kv ∈ B',
                              addrPrefix (splitDots (strDrop k keyPrefix.length))
                                (splitDots (strDrop kv.1 keyPrefix.length)) = false ∧
                              addrPrefix (splitDots (strDrop kv.1 keyPrefix.length))
                                (splitDots (strDrop k keyPrefix.length)) = false := by
                            intro kv hkv
                            have hkvne : kv.1 ≠ k :=
                              (filterKey_eq_nil_iff _ _).mp hB' kv hkv
                            have hmem : kv ∈ sortByKey
                                (A ++ [(k, v₁)] ++ B ++ [(k, v₂)] ++ C) := by
                              rw [hdec]
                              simp [hkv]
                            rw [mem_sortByKey] at hmem
                            have hmem2 : kv ∈ A ++ B ++ C := by
                              simp only [List.mem_append] at hmem ⊢
                              rcases hmem with (((h | h) | h) | h) | h
                              · exact Or.inl (Or.inl h)
                              · rcases List.mem_singleton.mp h with rfl
                                exact absurd rfl hkvne
                              · exact Or.inl (Or.inr h)
                              · rcases List.mem_singleton.mp h with rfl
                                exact absurd rfl hkvne
                              · exact Or.inr h
                            exact hdisj kv hmem2
                          exact applyKVs_get_frame conv B' m2' u w₂
                            (strDrop k keyPrefix.length) hget2 hdisjB hok
  · intro X Y p q t haddr
    have hne : p.1 ≠ q.1 := by
      intro hEq
      rw [hEq, addrPrefix_refl] at haddr
      cases haddr
    rw [sortByKey_swap X Y p q hne]

/-- Witness for C2: `gogo.y=22`, listed after `gogo.y=1` with the unrelated
`aaa.hello` in between, is the value read back; swapping two pairs on
unrelated paths leaves the application's outcome unchanged. -/
theorem claim_C2_witness :
    (applyKVs convEx (Json.obj [])
        (sortByKey ([] ++ [("CONFIGSET.gogo.y", "1")] ++
          [("CONFIGSET.aaa.hello", "\"hi\"")] ++ [("CONFIGSET.gogo.y", "22")] ++ []))
      = .ok (Json.obj [("aaa", Json.obj [("hello", Json.str "hi")]),
          ("gogo", Json.obj [("y", Json.num 22)])])) ∧
    jsonGet (Json.obj [("aaa", Json.obj [("hello", Json.str "hi")]),
        ("gogo", Json.obj [("y", Json.num 22)])])
      (strDrop "CONFIGSET.gogo.y" keyPrefix.length) = some (Json.num 22) ∧
    applyKVs convEx (Json.obj [])
        (sortByKey ([] ++ ("CONFIGSET.a.b", "1") :: ("CONFIGSET.c.d", "22") :: [])) =
      applyKVs convEx (Json.obj [])
        (sortByKey ([] ++ ("CONFIGSET.c.d", "22") :: ("CONFIGSET.a.b", "1") :: [])) :=
  ⟨rfl,
   (claim_C2 convEx).1 [] [("CONFIGSET.aaa.hello", "\"hi\"")] []
     "CONFIGSET.gogo.y" "1" "22" (Json.num 22) (Json.obj [])
     (Json.obj [("aaa", Json.obj [("hello", Json.str "hi")]),
       ("gogo", Json.obj [("y", Json.num 22)])])
     (by decide) (by decide) rfl rfl,
   (claim_C2 convEx).2 [] [] ("CONFIGSET.a.b", "1") ("CONFIGSET.c.d", "22")
     (Json.obj []) (by decide)⟩
